import Mathlib

/-!
# Verification of the unsteady MHD nanofluid Couette-flow core

Shallow embedding (over exact rationals `ℚ`, reals `ℝ` for the mixture
calculator) of the numerical core of the `mhd-unsteady-app` repository:

* `solveUnsteadyMHDCouette` — the implicit time-marching solver with its
  Picard inner loop, saved trajectory, wall-flux histories, energy
  integrals and transient-response metrics;
* `computeNanofluidProperties` — the nanofluid mixture-property calculator;
* `TransientOptimizer` — the genetic optimizer (`createInd`, `crossover`,
  `mutate`, tournament selection, the generation loop).

JavaScript `Math.random()` is modelled as an injected stream `r : ℕ → ℚ`
of draws together with an explicit counter; `Math.floor` is `Int.floor`;
number literals are exact rationals.
-/

namespace MHD

/-- The solver's parameter record (destructured at the top of
`solveUnsteadyMHDCouette`). -/
structure Params where
  A1 : ℚ
  A2 : ℚ
  A3 : ℚ
  A4 : ℚ
  A5 : ℚ
  Re : ℚ
  Ha : ℚ
  Pr : ℚ
  Ec : ℚ
  Bi : ℚ
  lambda : ℚ
  G : ℚ
  N : ℕ
deriving DecidableEq

/-- Grid spacing `h = 1.0 / N`. -/
def gridH (p : Params) : ℚ := 1 / (p.N : ℚ)

/-- Initial velocity profile `W[i] = eta[i] * Re / (1 + lambda)` with
`eta[i] = i * h`. -/
def initW (p : Params) : List ℚ :=
  (List.range (p.N + 1)).map fun (i : ℕ) => ((i : ℚ) * gridH p) * p.Re / (1 + p.lambda)

/-- Initial temperature profile `Theta[i] = 1 - (Bi/(1+Bi)) * eta[i]`. -/
def initTheta (p : Params) : List ℚ :=
  (List.range (p.N + 1)).map fun (i : ℕ) => 1 - (p.Bi / (1 + p.Bi)) * ((i : ℚ) * gridH p)

/-- The paired solver state `(W, Theta)` at one instant. -/
def initState (p : Params) : List ℚ × List ℚ := (initW p, initTheta p)

/-- One-sided/central finite difference `Wp[i]` used throughout the source:
forward at node `0`, backward at node `N`, central in the interior. -/
def wpAt (N : ℕ) (h : ℚ) (W : List ℚ) (i : ℕ) : ℚ :=
  if i = 0 then (W.getD 1 0 - W.getD 0 0) / h
  else if i = N then (W.getD N 0 - W.getD (N - 1) 0) / h
  else (W.getD (i + 1) 0 - W.getD (i - 1) 0) / (2 * h)

/-- Interior momentum relaxation:
`W[i] = (coeff*(W_prev[i-1]+W_prev[i+1]) + G + (A4/dtau)*W_old[i]) / diag`
with `coeff = A1/h²` and `diag = 2*A1/h² + A2*Ha² + A4/dtau`. -/
def momentumInterior (p : Params) (dtau : ℚ) (W_old W_prev : List ℚ) (i : ℕ) : ℚ :=
  let h := gridH p
  (p.A1 / (h * h) * (W_prev.getD (i - 1) 0 + W_prev.getD (i + 1) 0) + p.G
      + (p.A4 / dtau) * W_old.getD i 0)
    / (2 * p.A1 / (h * h) + p.A2 * p.Ha * p.Ha + p.A4 / dtau)

/-- The momentum substep of one Picard iteration: Jacobi relaxation on the
interior nodes from the previous iterate, then `W[0] = 0` and
`W[N] = (Re + lambda*W[N-1]/h) / (1 + lambda/h)`. -/
def momentumUpdate (p : Params) (dtau : ℚ) (W_old W_prev : List ℚ) : List ℚ :=
  let h := gridH p
  let base := (List.range (p.N + 1)).map fun i =>
    if 1 ≤ i ∧ i < p.N then momentumInterior p dtau W_old W_prev i else W_prev.getD i 0
  let b0 := base.set 0 0
  b0.set p.N ((p.Re + p.lambda * b0.getD (p.N - 1) 0 / h) / (1 + p.lambda / h))

/-- Interior energy relaxation with the viscous/Joule source evaluated on the
just-updated velocity field `W`:
`Theta[i] = (coeff*(Th_prev[i-1]+Th_prev[i+1]) + source + (A5*Pr/dtau)*Th_old[i]) / diag`. -/
def energyInterior (p : Params) (dtau : ℚ) (Theta_old Theta_prev W : List ℚ) (i : ℕ) : ℚ :=
  let h := gridH p
  let source := p.A1 * p.Pr * p.Ec * wpAt p.N h W i * wpAt p.N h W i
      + p.A2 * p.Pr * p.Ec * p.Ha * p.Ha * W.getD i 0 * W.getD i 0
  (p.A3 / (h * h) * (Theta_prev.getD (i - 1) 0 + Theta_prev.getD (i + 1) 0) + source
      + (p.A5 * p.Pr / dtau) * Theta_old.getD i 0)
    / (2 * p.A3 / (h * h) + p.A5 * p.Pr / dtau)

/-- The energy substep of one Picard iteration: interior relaxation, then
`Theta[0] = 1` and `Theta[N] = Theta[N-1] / (1 + h*Bi)`. -/
def energyUpdate (p : Params) (dtau : ℚ) (Theta_old Theta_prev W : List ℚ) : List ℚ :=
  let h := gridH p
  let base := (List.range (p.N + 1)).map fun i =>
    if 1 ≤ i ∧ i < p.N then energyInterior p dtau Theta_old Theta_prev W i
    else Theta_prev.getD i 0
  let b0 := base.set 0 1
  b0.set p.N (b0.getD (p.N - 1) 0 / (1 + h * p.Bi))

/-- One full Picard iteration inside a time step: momentum substep from the
previous iterate, then energy substep using the just-updated velocity. -/
def picardIter (p : Params) (dtau : ℚ) (W_old Theta_old : List ℚ)
    (s : List ℚ × List ℚ) : List ℚ × List ℚ :=
  let W' := momentumUpdate p dtau W_old s.1
  (W', energyUpdate p dtau Theta_old s.2 W')

/-- `maxDiff` of the source's convergence check: running maximum of
`|W[i]-W_prev[i]|` and `|Theta[i]-Theta_prev[i]|` over `i = 0..N`. -/
def maxDiff (N : ℕ) (W W_prev Theta Theta_prev : List ℚ) : ℚ :=
  ((List.range (N + 1)).map fun i =>
    max |W.getD i 0 - W_prev.getD i 0| |Theta.getD i 0 - Theta_prev.getD i 0|).foldl max 0

/-- The Picard convergence tolerance `1e-10`. -/
def picardTol : ℚ := 1 / 10000000000

/-- Generic capped iteration: apply `F` up to `fuel` times, stopping after
the first application for which `conv old new` holds; returns the final
state and the number of applications performed. -/
def iterLoop {α : Type} (F : α → α) (conv : α → α → Bool) : ℕ → α → α × ℕ
  | 0, s => (s, 0)
  | fuel + 1, s =>
    let s' := F s
    if conv s s' then (s', 1)
    else
      let r := iterLoop F conv fuel s'
      (r.1, r.2 + 1)

/-- The source's convergence test for one Picard iteration. -/
def picardConv (p : Params) (s s' : List ℚ × List ℚ) : Bool :=
  maxDiff p.N s'.1 s.1 s'.2 s.2 < picardTol

/-- The Picard inner loop of one time step: at most 15 iterations of
`picardIter` with early exit on `maxDiff < 1e-10`. -/
def picardRun (p : Params) (dtau : ℚ) (W_old Theta_old : List ℚ)
    (fuel : ℕ) (s : List ℚ × List ℚ) : (List ℚ × List ℚ) × ℕ :=
  iterLoop (picardIter p dtau W_old Theta_old) (picardConv p) fuel s

/-- One backward-Euler time step: `W_old`/`Theta_old` are frozen at the step
start and the Picard loop (budget 15) is run from the current state. -/
def timeStep (p : Params) (dtau : ℚ) (s : List ℚ × List ℚ) : List ℚ × List ℚ :=
  (picardRun p dtau s.1 s.2 15 s).1

/-- Solver state after `n` completed time steps. -/
def solStateAt (p : Params) (dtau : ℚ) (n : ℕ) : List ℚ × List ℚ :=
  (timeStep p dtau)^[n] (initState p)

/-- Number of time steps `Nt = Math.floor(tauFinal / dtau)`. -/
def numSteps (tauFinal dtau : ℚ) : ℕ := (⌊tauFinal / dtau⌋).toNat

/-- Indices of the saved trajectory samples: the initial state plus every
step `n` with `n % saveFreq == 0` or `n == Nt`. -/
def savedSteps (Nt saveFreq : ℕ) : List ℕ :=
  0 :: (List.range' 1 Nt).filter fun n => n % saveFreq == 0 || n == Nt

/-- The saved `tauHistory`: `n * dtau` at each saved step. -/
def tauHistory (dtau tauFinal : ℚ) (saveFreq : ℕ) : List ℚ :=
  (savedSteps (numSteps tauFinal dtau) saveFreq).map fun (n : ℕ) => (n : ℚ) * dtau

/-- The saved lower-wall skin-friction history `Cf_lower = A1 * Wp[0]`. -/
def cfLowerHistory (p : Params) (dtau tauFinal : ℚ) (saveFreq : ℕ) : List ℚ :=
  (savedSteps (numSteps tauFinal dtau) saveFreq).map fun n =>
    p.A1 * wpAt p.N (gridH p) (solStateAt p dtau n).1 0

/-- The recorded kinetic-energy integrand sum for one saved velocity profile:
`KE = Σ_{i<N} 0.5 * (W[i]² + W[i+1]²) * h`. -/
def keOf (N : ℕ) (h : ℚ) (W : List ℚ) : ℚ :=
  ((List.range N).map fun i =>
    (1 / 2) * ((W.getD i 0) ^ 2 + (W.getD (i + 1) 0) ^ 2) * h).sum

/-- The saved `kineticEnergy` history of a solve. -/
def kineticEnergyList (p : Params) (dtau tauFinal : ℚ) (saveFreq : ℕ) : List ℚ :=
  (savedSteps (numSteps tauFinal dtau) saveFreq).map fun n =>
    keOf p.N (gridH p) (solStateAt p dtau n).1

/-- Trapezoidal-rule approximation of `∫ f dη` on the uniform grid:
`Σ_{i<N} (f i + f (i+1))/2 * h`.  (Stated from the spec's words, for
comparison with the recorded energies.) -/
def trapezoidRule (N : ℕ) (h : ℚ) (f : ℕ → ℚ) : ℚ :=
  ((List.range N).map fun i => (f i + f (i + 1)) / 2 * h).sum

/-- The rise-time scan of the source: one forward pass over
`(tau, Cf)` pairs carrying `tau63` (initially the sentinel `tauFinal`),
breaking at the first `|Cf| ≥ 0.95*|CfFinal|`. -/
def riseLoop (tauFinal cfF : ℚ) : List (ℚ × ℚ) → ℚ → ℚ × ℚ
  | [], t63 => (t63, tauFinal)
  | (tau, cf) :: rest, t63 =>
    let t63' := if (63 / 100) * |cfF| ≤ |cf| ∧ t63 = tauFinal then tau else t63
    if (95 / 100) * |cfF| ≤ |cf| then (t63', tau) else riseLoop tauFinal cfF rest t63'

/-- The solver's `(tau63, tau95)` pair for a completed solve. -/
def riseTimes (p : Params) (dtau tauFinal : ℚ) (saveFreq : ℕ) : ℚ × ℚ :=
  let cfH := cfLowerHistory p dtau tauFinal saveFreq
  let cfF := cfH.getD (cfH.length - 1) 0
  riseLoop tauFinal cfF ((tauHistory dtau tauFinal saveFreq).zip cfH) tauFinal

/-- The solver state recorded in the `t`-th saved trajectory sample. -/
def sampleState (p : Params) (dtau tauFinal : ℚ) (saveFreq t : ℕ) : List ℚ × List ℚ :=
  solStateAt p dtau ((savedSteps (numSteps tauFinal dtau) saveFreq).getD t 0)

/-! ## Nanofluid mixture calculator (`computeNanofluidProperties`) -/

/-- The eight known nanoparticle keys of `NANOPARTICLES`. -/
inductive Particle
  | Cu | Al2O3 | TiO2 | Ag | Fe3O4 | SiO2 | CuO | ZnO
deriving DecidableEq

/-- Physical constants of a nanoparticle entry. -/
structure ParticleProps where
  rho : ℝ
  k : ℝ
  Cp : ℝ
  sigma : ℝ

/-- The `NANOPARTICLES` database (physical constants only). -/
def nanoparticleDB : Particle → ParticleProps
  | .Cu => ⟨8933, 401, 385, 5.96e7⟩
  | .Al2O3 => ⟨3970, 40, 765, 1e-10⟩
  | .TiO2 => ⟨4250, 8.95, 686, 1e-12⟩
  | .Ag => ⟨10500, 429, 235, 6.3e7⟩
  | .Fe3O4 => ⟨5180, 9.7, 670, 2.5e4⟩
  | .SiO2 => ⟨2200, 1.4, 745, 1e-14⟩
  | .CuO => ⟨6320, 76.5, 532, 1e-10⟩
  | .ZnO => ⟨5606, 29, 523, 1e-8⟩

/-- The five dimensionless property ratios returned by the calculator. -/
structure Ratios where
  A1 : ℝ
  A2 : ℝ
  A3 : ℝ
  A4 : ℝ
  A5 : ℝ

/-- `computeNanofluidProperties(type, phi)`: `none` models an unknown
particle key (the `!NANOPARTICLES[type]` early return); otherwise the
Brinkman/Maxwell mixture formulas against the fixed base-fluid constants. -/
noncomputable def computeNanofluidProperties : Option Particle → ℝ → Ratios
  | none, _ => ⟨1.2, 1.5, 1.3, 1.1, 1.15⟩
  | some t, phi =>
    let rho_f : ℝ := 997
    let k_f : ℝ := 0.613
    let Cp_f : ℝ := 4179
    let sigma_f : ℝ := 0.05
    let pp := nanoparticleDB t
    let A4 := ((1 - phi) * rho_f + phi * pp.rho) / rho_f
    let A1 := 1 / (1 - phi) ^ (2.5 : ℝ)
    let A3 := (pp.k + 2 * k_f + 2 * phi * (pp.k - k_f)) / (pp.k + 2 * k_f - phi * (pp.k - k_f))
    let A5 := ((1 - phi) * rho_f * Cp_f + phi * pp.rho * pp.Cp) / (rho_f * Cp_f)
    let sr := pp.sigma / sigma_f
    let A2 := 1 + 3 * phi * (sr - 1) / (sr + 2 - phi * (sr - 1))
    ⟨A1, A2, A3, A4, A5⟩

/-! ## The genetic optimizer (`TransientOptimizer`)

`Math.random()` is modelled as a stream `r : ℕ → ℚ` of draws consumed in
program order through an explicit counter; `bounds` is the ordered list of
search dimensions (JavaScript object-key order). -/

/-- Optimizer configuration (`populationSize`, `mutationRate`, bounds). -/
structure GAConfig where
  bounds : List (ℚ × ℚ)
  popSize : ℕ
  mutRate : ℚ

/-- `createInd`: one fresh individual, `min + random() * (max - min)` per
dimension; returns the individual and the advanced draw counter. -/
def createInd (r : ℕ → ℚ) : List (ℚ × ℚ) → ℕ → List ℚ × ℕ
  | [], k => ([], k)
  | b :: bs, k =>
    let rest := createInd r bs (k + 1)
    ((b.1 + r k * (b.2 - b.1)) :: rest.1, rest.2)

/-- The initial population: `popSize` fresh individuals in order. -/
def initPop (r : ℕ → ℚ) (bounds : List (ℚ × ℚ)) : ℕ → ℕ → List (List ℚ) × ℕ
  | 0, k => ([], k)
  | n + 1, k =>
    let ind := createInd r bounds k
    let rest := initPop r bounds n ind.2
    (ind.1 :: rest.1, rest.2)

/-- `crossover`: per-dimension blend `a*p1[k] + (1-a)*p2[k]`, one fresh `a`
per dimension. -/
def crossover (r : ℕ → ℚ) : List (ℚ × ℚ) → List ℚ → List ℚ → ℕ → List ℚ × ℕ
  | [], _, _, k => ([], k)
  | _ :: bs, p1, p2, k =>
    let a := r k
    let rest := crossover r bs p1.tail p2.tail (k + 1)
    ((a * p1.headD 0 + (1 - a) * p2.headD 0) :: rest.1, rest.2)

/-- `mutate`: with probability `mutRate` per dimension, perturb by
`(random() - 0.5) * (max - min) * 0.4` and clip to `[min, max]`. -/
def mutate (r : ℕ → ℚ) (mutRate : ℚ) : List (ℚ × ℚ) → List ℚ → ℕ → List ℚ × ℕ
  | [], _, k => ([], k)
  | b :: bs, v, k =>
    if r k < mutRate then
      let w := max b.1 (min b.2 (v.headD 0 + (r (k + 1) - 1 / 2) * (b.2 - b.1) * (4 / 10)))
      let rest := mutate r mutRate bs v.tail (k + 2)
      (w :: rest.1, rest.2)
    else
      let rest := mutate r mutRate bs v.tail (k + 1)
      (v.headD 0 :: rest.1, rest.2)

/-- Insertion step of the descending sort on fitness. -/
def insertByFit (x : List ℚ × ℚ) : List (List ℚ × ℚ) → List (List ℚ × ℚ)
  | [] => [x]
  | y :: ys => if y.2 < x.2 then x :: y :: ys else y :: insertByFit x ys

/-- `sort((a, b) => b.fit - a.fit)`: descending sort on fitness. -/
def sortByFitDesc : List (List ℚ × ℚ) → List (List ℚ × ℚ)
  | [] => []
  | x :: xs => insertByFit x (sortByFitDesc xs)

/-- `Math.floor(random() * length)`. -/
def randIndex (q : ℚ) (len : ℕ) : ℕ := (⌊q * (len : ℚ)⌋).toNat

/-- The source's `sel` closure: an initial random candidate followed by two
further random challenger draws, keeping the strictly fitter at each
comparison; consumes three draws. -/
def selTournament (ev : List (List ℚ × ℚ)) (r : ℕ → ℚ) (k : ℕ) : (List ℚ × ℚ) × ℕ :=
  let b0 := ev.getD (randIndex (r k) ev.length) ([], 0)
  let b1 :=
    let c := ev.getD (randIndex (r (k + 1)) ev.length) ([], 0)
    if b0.2 < c.2 then c else b0
  let b2 :=
    let c := ev.getD (randIndex (r (k + 2)) ev.length) ([], 0)
    if b1.2 < c.2 then c else b1
  (b2, k + 3)

/-- Modelled from the spec: tournament selection by "2 random draws per
parent slot, keep the fitter" — two random candidates, the fitter wins,
two draws consumed.  Stated for comparison with `selTournament`. -/
def selSpecTwoDraw (ev : List (List ℚ × ℚ)) (r : ℕ → ℚ) (k : ℕ) : (List ℚ × ℚ) × ℕ :=
  let c1 := ev.getD (randIndex (r k) ev.length) ([], 0)
  let c2 := ev.getD (randIndex (r (k + 1)) ev.length) ([], 0)
  (if c1.2 < c2.2 then c2 else c1, k + 2)

/-- The `while (newPop.length < popSize)` filling loop: each slot is
`mutate(crossover(sel(), sel()))`. -/
def fillPop (r : ℕ → ℚ) (bounds : List (ℚ × ℚ)) (mutRate : ℚ)
    (ev : List (List ℚ × ℚ)) : ℕ → ℕ → List (List ℚ) × ℕ
  | 0, k => ([], k)
  | m + 1, k =>
    let s1 := selTournament ev r k
    let s2 := selTournament ev r s1.2
    let ch := crossover r bounds s1.1.1 s2.1.1 s2.2
    let mu := mutate r mutRate bounds ch.1 ch.2
    let rest := fillPop r bounds mutRate ev m mu.2
    (mu.1 :: rest.1, rest.2)

/-- Mutable state of `optimize`: current population, best-so-far individual
and fitness (`bestFit` starts at `-Infinity`, modelled by `⊥`), and the
draw counter. -/
structure GAState where
  pop : List (List ℚ)
  best : Option (List ℚ)
  bestFit : WithBot ℚ
  ctr : ℕ

/-- Evaluate and sort a population by descending fitness. -/
def evalPop (fn : List ℚ → ℚ) (pop : List (List ℚ)) : List (List ℚ × ℚ) :=
  sortByFitDesc (pop.map fun i => (i, fn i))

/-- One generation of `optimize`: evaluate and sort, update the best-so-far
under `ev[0].fit > bestFit`, seed the next population with the top two,
fill the remaining `popSize - 2` slots. -/
def genStep (cfg : GAConfig) (fn : List ℚ → ℚ) (r : ℕ → ℚ) (st : GAState) : GAState :=
  let ev := evalPop fn st.pop
  let top := ev.getD 0 ([], 0)
  let best' := if st.bestFit < (top.2 : WithBot ℚ) then some top.1 else st.best
  let bestFit' := if st.bestFit < (top.2 : WithBot ℚ) then (top.2 : WithBot ℚ) else st.bestFit
  let filled := fillPop r cfg.bounds cfg.mutRate ev (cfg.popSize - 2) st.ctr
  { pop := top.1 :: (ev.getD 1 ([], 0)).1 :: filled.1
    best := best'
    bestFit := bestFit'
    ctr := filled.2 }

/-- The optimizer state before the first generation. -/
def gaInit (cfg : GAConfig) (r : ℕ → ℚ) : GAState :=
  let ip := initPop r cfg.bounds cfg.popSize 0
  { pop := ip.1, best := none, bestFit := ⊥, ctr := ip.2 }

/-- The optimizer state after `g` completed generations. -/
def gaStateAt (cfg : GAConfig) (fn : List ℚ → ℚ) (r : ℕ → ℚ) (g : ℕ) : GAState :=
  (genStep cfg fn r)^[g] (gaInit cfg r)

/-- The `bestFitness` reported by `onProgress` at generation `g`
(the update of generation `g` has already happened). -/
def reportedBestFit (cfg : GAConfig) (fn : List ℚ → ℚ) (r : ℕ → ℚ) (g : ℕ) : WithBot ℚ :=
  (gaStateAt cfg fn r (g + 1)).bestFit

/-- The `bestFitness` returned after the final generation of a
`gens`-generation run. -/
def finalBestFit (cfg : GAConfig) (fn : List ℚ → ℚ) (r : ℕ → ℚ) (gens : ℕ) : WithBot ℚ :=
  (gaStateAt cfg fn r gens).bestFit

/-- An individual lies within the declared per-dimension `[min, max]`
bounds (and has one value per declared dimension). -/
def inBounds : List ℚ → List (ℚ × ℚ) → Bool
  | [], [] => true
  | v :: vs, b :: bs => decide (b.1 ≤ v) && decide (v ≤ b.2) && inBounds vs bs
  | _, _ => false

/-- A tiny concrete parameter set (`N = 1`, `Ha = Ec = Bi = lambda = G = 0`)
used to exercise the solver on closed instances. -/
def pTiny : Params :=
  { A1 := 1, A2 := 1, A3 := 1, A4 := 1, A5 := 1, Re := 1, Ha := 0, Pr := 1,
    Ec := 0, Bi := 0, lambda := 0, G := 0, N := 1 }

/-- A concrete evaluated two-candidate population (fitnesses 0 and 1). -/
def evPair : List (List ℚ × ℚ) := [([0], 0), ([1], 1)]

/-- A concrete draw stream: the third draw picks index 1, the others index 0. -/
def rStep : ℕ → ℚ := fun k => if k = 2 then 1 / 2 else 0

/-! ## List-indexing helper lemmas -/

theorem getD_map_range {n j : ℕ} (f : ℕ → ℚ) (h : j < n) :
    ((List.range n).map f).getD j 0 = f j := by
  rw [List.getD_eq_getElem?_getD, List.getElem?_map, List.getElem?_range h]; rfl

theorem getD_set_ne (l : List ℚ) {i j : ℕ} (a : ℚ) (h : i ≠ j) :
    (l.set i a).getD j 0 = l.getD j 0 := by
  rw [List.getD_eq_getElem?_getD, List.getElem?_set_ne h, ← List.getD_eq_getElem?_getD]

theorem getD_set_self (l : List ℚ) {i : ℕ} (a : ℚ) (h : i < l.length) :
    (l.set i a).getD i 0 = a := by
  rw [List.getD_eq_getElem?_getD, List.getElem?_set_self']
  simp [h]

theorem getD_mem (l : List ℚ) (d : ℚ) {i : ℕ} (h : i < l.length) : l.getD i d ∈ l := by
  rw [List.getD_eq_getElem?_getD, List.getElem?_eq_getElem h]
  exact List.getElem_mem h

/-! ## Generic facts about the capped iteration loop -/

section IterLoop

variable {α : Type} (F : α → α) (conv : α → α → Bool)

theorem iterLoop_count_le : ∀ (k : ℕ) (s : α), (iterLoop F conv k s).2 ≤ k := by
  intro k
  induction k with
  | zero => intro s; simp [iterLoop]
  | succ k ih =>
    intro s
    by_cases hc : conv s (F s)
    · simp [iterLoop, hc]
    · simpa [iterLoop, hc] using ih (F s)

theorem iterLoop_count_pos (k : ℕ) (s : α) (hk : 1 ≤ k) :
    1 ≤ (iterLoop F conv k s).2 := by
  match k, hk with
  | k' + 1, _ => by_cases hc : conv s (F s) <;> simp [iterLoop, hc]

theorem iterLoop_fst : ∀ (k : ℕ) (s : α),
    (iterLoop F conv k s).1 = F^[(iterLoop F conv k s).2] s := by
  intro k
  induction k with
  | zero => intro s; simp [iterLoop]
  | succ k ih =>
    intro s
    by_cases hc : conv s (F s)
    · simp [iterLoop, hc]
    · simp only [iterLoop, hc, if_false, Bool.false_eq_true]
      rw [ih (F s), Function.iterate_succ_apply]

theorem iterLoop_converged : ∀ (k : ℕ) (s : α),
    (iterLoop F conv k s).2 < k →
      conv (F^[(iterLoop F conv k s).2 - 1] s) (F^[(iterLoop F conv k s).2] s) = true := by
  intro k
  induction k with
  | zero => intro s h; omega
  | succ k ih =>
    intro s h
    by_cases hc : conv s (F s)
    · simp [iterLoop, hc]
    · simp only [iterLoop, hc, if_false, Bool.false_eq_true] at h ⊢
      have hlt : (iterLoop F conv k (F s)).2 < k := by omega
      have hpos : 1 ≤ (iterLoop F conv k (F s)).2 := by
        rcases Nat.eq_zero_or_pos k with hk0 | hk1
        · omega
        · exact iterLoop_count_pos F conv k (F s) hk1
      have h2 := ih (F s) hlt
      rw [← Function.iterate_succ_apply, ← Function.iterate_succ_apply] at h2
      simp only [Nat.succ_eq_add_one] at h2
      rw [Nat.sub_add_cancel hpos] at h2
      simpa [Nat.add_sub_cancel] using h2

theorem iterLoop_not_early : ∀ (k : ℕ) (s : α) (j : ℕ),
    j + 1 < (iterLoop F conv k s).2 → conv (F^[j] s) (F^[j + 1] s) = false := by
  intro k
  induction k with
  | zero => intro s j h; simp [iterLoop] at h
  | succ k ih =>
    intro s j h
    by_cases hc : conv s (F s)
    · simp [iterLoop, hc] at h
    · simp only [iterLoop, hc, if_false, Bool.false_eq_true] at h
      match j with
      | 0 => simpa using hc
      | j' + 1 =>
        have := ih (F s) j' (by omega)
        rwa [← Function.iterate_succ_apply, ← Function.iterate_succ_apply] at this

end IterLoop

/-! ## Boundary values produced by the Picard substeps -/

theorem momentumUpdate_length (p : Params) (dtau : ℚ) (W_old W_prev : List ℚ) :
    (momentumUpdate p dtau W_old W_prev).length = p.N + 1 := by
  simp [momentumUpdate]

theorem energyUpdate_length (p : Params) (dtau : ℚ) (Theta_old Theta_prev W : List ℚ) :
    (energyUpdate p dtau Theta_old Theta_prev W).length = p.N + 1 := by
  simp [energyUpdate]

theorem momentumUpdate_getD_zero (p : Params) (dtau : ℚ) (W_old W_prev : List ℚ)
    (hN : 1 ≤ p.N) : (momentumUpdate p dtau W_old W_prev).getD 0 0 = 0 := by
  unfold momentumUpdate
  rw [getD_set_ne _ _ (by omega : p.N ≠ 0)]
  exact getD_set_self _ _ (by simp)

theorem momentumUpdate_getD_top (p : Params) (dtau : ℚ) (W_old W_prev : List ℚ)
    (hl : p.lambda = 0) : (momentumUpdate p dtau W_old W_prev).getD p.N 0 = p.Re := by
  unfold momentumUpdate
  rw [getD_set_self _ _ (by simp)]
  simp [hl]

theorem energyUpdate_getD_zero (p : Params) (dtau : ℚ) (Theta_old Theta_prev W : List ℚ)
    (hN : 1 ≤ p.N) : (energyUpdate p dtau Theta_old Theta_prev W).getD 0 0 = 1 := by
  unfold energyUpdate
  rw [getD_set_ne _ _ (by omega : p.N ≠ 0)]
  exact getD_set_self _ _ (by simp)

theorem picardIter_boundary (p : Params) (dtau : ℚ) (W_old Theta_old : List ℚ)
    (s : List ℚ × List ℚ) (hN : 1 ≤ p.N) :
    (picardIter p dtau W_old Theta_old s).1.getD 0 0 = 0 ∧
      (picardIter p dtau W_old Theta_old s).2.getD 0 0 = 1 :=
  ⟨momentumUpdate_getD_zero p dtau W_old s.1 hN,
    energyUpdate_getD_zero p dtau Theta_old s.2 _ hN⟩

/-- A completed time step is the output of at least one Picard iteration. -/
theorem timeStep_eq_picardIter (p : Params) (dtau : ℚ) (s : List ℚ × List ℚ) :
    ∃ t, timeStep p dtau s = picardIter p dtau s.1 s.2 t := by
  unfold timeStep picardRun
  set F := picardIter p dtau s.1 s.2 with hF
  have hc := iterLoop_count_pos F (picardConv p) 15 s (by omega)
  rw [iterLoop_fst F (picardConv p) 15 s]
  refine ⟨F^[(iterLoop F (picardConv p) 15 s).2 - 1] s, ?_⟩
  conv_lhs => rw [show (iterLoop F (picardConv p) 15 s).2
    = ((iterLoop F (picardConv p) 15 s).2 - 1) + 1 by omega]
  rw [Function.iterate_succ_apply']

end MHD

namespace MHD

/-! ## Claim C2: lower-plate boundary values -/

theorem solState_boundary (p : Params) (dtau : ℚ) (hN : 1 ≤ p.N) :
    ∀ n, (solStateAt p dtau n).1.getD 0 0 = 0 ∧ (solStateAt p dtau n).2.getD 0 0 = 1 := by
  intro n
  induction n with
  | zero =>
    constructor
    · show (initW p).getD 0 0 = 0
      rw [initW, getD_map_range _ (by omega)]
      simp
    · show (initTheta p).getD 0 0 = 1
      rw [initTheta, getD_map_range _ (by omega)]
      simp
  | succ n ih =>
    have hstep : solStateAt p dtau (n + 1) = timeStep p dtau (solStateAt p dtau n) := by
      rw [solStateAt, Function.iterate_succ_apply']
      rfl
    rw [hstep]
    obtain ⟨t, ht⟩ := timeStep_eq_picardIter p dtau (solStateAt p dtau n)
    rw [ht]
    exact picardIter_boundary p dtau _ _ t hN

/-- **C2**: for every valid parameter set (positive grid resolution), after
every completed time step and in every recorded trajectory sample the
lower-boundary values satisfy `W[0] = 0` and `Theta[0] = 1` exactly. -/
theorem lower_boundary_invariant (p : Params) (dtau tauFinal : ℚ) (saveFreq n t : ℕ)
    (hN : 1 ≤ p.N) :
    (solStateAt p dtau n).1.getD 0 0 = 0 ∧ (solStateAt p dtau n).2.getD 0 0 = 1 ∧
      (sampleState p dtau tauFinal saveFreq t).1.getD 0 0 = 0 ∧
      (sampleState p dtau tauFinal saveFreq t).2.getD 0 0 = 1 := by
  obtain ⟨h1, h2⟩ := solState_boundary p dtau hN n
  obtain ⟨h3, h4⟩ :=
    solState_boundary p dtau hN ((savedSteps (numSteps tauFinal dtau) saveFreq).getD t 0)
  exact ⟨h1, h2, h3, h4⟩

/-- Witness for C2 at the concrete parameter set `pTiny`, step 1, sample 0. -/
theorem lower_boundary_invariant_witness :
    1 ≤ pTiny.N ∧
      ((solStateAt pTiny (1/2) 1).1.getD 0 0 = 0 ∧ (solStateAt pTiny (1/2) 1).2.getD 0 0 = 1 ∧
        (sampleState pTiny (1/2) 1 1 0).1.getD 0 0 = 0 ∧
        (sampleState pTiny (1/2) 1 1 0).2.getD 0 0 = 1) :=
  ⟨by decide, lower_boundary_invariant pTiny (1/2) 1 1 1 0 (by decide)⟩

/-! ## Claim C5: the Picard iteration budget and early exit -/

/-- **C5**: within a time step from state `s`, the Picard loop performs
between 1 and 15 iterations of `picardIter`; the solver always proceeds
with the last iterate (`timeStep` is the `count`-fold iterate, whether or
not the tolerance was met — no error path exists); if it stopped below the
budget then the last performed iteration met `maxDiff < 1e-10`; and no
earlier iteration met the tolerance (the loop exits as soon as it is met). -/
theorem picard_budget_and_early_exit (p : Params) (dtau : ℚ) (s : List ℚ × List ℚ) (j : ℕ) :
    (picardRun p dtau s.1 s.2 15 s).2 ≤ 15 ∧
      1 ≤ (picardRun p dtau s.1 s.2 15 s).2 ∧
      timeStep p dtau s = (picardIter p dtau s.1 s.2)^[(picardRun p dtau s.1 s.2 15 s).2] s ∧
      ((picardRun p dtau s.1 s.2 15 s).2 < 15 →
        picardConv p ((picardIter p dtau s.1 s.2)^[(picardRun p dtau s.1 s.2 15 s).2 - 1] s)
          ((picardIter p dtau s.1 s.2)^[(picardRun p dtau s.1 s.2 15 s).2] s) = true) ∧
      (j + 1 < (picardRun p dtau s.1 s.2 15 s).2 →
        picardConv p ((picardIter p dtau s.1 s.2)^[j] s)
          ((picardIter p dtau s.1 s.2)^[j + 1] s) = false) := by
  refine ⟨iterLoop_count_le _ _ 15 s, iterLoop_count_pos _ _ 15 s (by omega), ?_, ?_, ?_⟩
  · exact iterLoop_fst _ _ 15 s
  · exact iterLoop_converged _ _ 15 s
  · exact iterLoop_not_early _ _ 15 s j

/-- Witness for C5 at `pTiny`: the loop converges after exactly one
iteration there, and all stated properties are concrete. -/
theorem picard_budget_witness :
    (picardRun pTiny 1 (initState pTiny).1 (initState pTiny).2 15 (initState pTiny)).2 ≤ 15 ∧
      1 ≤ (picardRun pTiny 1 (initState pTiny).1 (initState pTiny).2 15 (initState pTiny)).2 ∧
      timeStep pTiny 1 (initState pTiny) =
        (picardIter pTiny 1 (initState pTiny).1
          (initState pTiny).2)^[(picardRun pTiny 1 (initState pTiny).1 (initState pTiny).2 15
            (initState pTiny)).2] (initState pTiny) ∧
      ((picardRun pTiny 1 (initState pTiny).1 (initState pTiny).2 15 (initState pTiny)).2 < 15 →
        picardConv pTiny
          ((picardIter pTiny 1 (initState pTiny).1
            (initState pTiny).2)^[(picardRun pTiny 1 (initState pTiny).1 (initState pTiny).2 15
              (initState pTiny)).2 - 1] (initState pTiny))
          ((picardIter pTiny 1 (initState pTiny).1
            (initState pTiny).2)^[(picardRun pTiny 1 (initState pTiny).1 (initState pTiny).2 15
              (initState pTiny)).2] (initState pTiny)) = true) ∧
      (0 + 1 < (picardRun pTiny 1 (initState pTiny).1 (initState pTiny).2 15 (initState pTiny)).2 →
        picardConv pTiny ((picardIter pTiny 1 (initState pTiny).1 (initState pTiny).2)^[0]
            (initState pTiny))
          ((picardIter pTiny 1 (initState pTiny).1 (initState pTiny).2)^[0 + 1]
            (initState pTiny)) = false) :=
  picard_budget_and_early_exit pTiny 1 (initState pTiny) 0

/-! ## Claim C7: upper-plate boundary at zero slip -/

/-- **C7**: whenever the slip parameter vanishes, the momentum substep of
every Picard iteration (hence every completed time step) sets the
upper-boundary velocity to `W[N] = Re` exactly. -/
theorem upper_boundary_noslip (p : Params) (dtau : ℚ) (W_old Theta_old : List ℚ)
    (s : List ℚ × List ℚ) (hl : p.lambda = 0) :
    (picardIter p dtau W_old Theta_old s).1.getD p.N 0 = p.Re ∧
      (timeStep p dtau s).1.getD p.N 0 = p.Re := by
  constructor
  · exact momentumUpdate_getD_top p dtau W_old s.1 hl
  · obtain ⟨t, ht⟩ := timeStep_eq_picardIter p dtau s
    rw [ht]
    exact momentumUpdate_getD_top p dtau s.1 t.1 hl

/-- Witness for C7 at `pTiny` (where `lambda = 0` and `Re = 1`). -/
theorem upper_boundary_noslip_witness :
    pTiny.lambda = 0 ∧
      ((picardIter pTiny 1 (initState pTiny).1 (initState pTiny).2
            (initState pTiny)).1.getD pTiny.N 0 = pTiny.Re ∧
        (timeStep pTiny 1 (initState pTiny)).1.getD pTiny.N 0 = pTiny.Re) :=
  ⟨by decide,
    upper_boundary_noslip pTiny 1 (initState pTiny).1 (initState pTiny).2
      (initState pTiny) (by decide)⟩

end MHD

namespace MHD

/-! ## Claim C1: the recorded kinetic energy -/

theorem getD_map_of_lt {α : Type} (l : List α) (f : α → ℚ) {t : ℕ} (h : t < l.length) (d : α) :
    (l.map f).getD t 0 = f (l.getD t d) := by
  rw [List.getD_eq_getElem?_getD, List.getElem?_map, List.getElem?_eq_getElem h,
    List.getD_eq_getElem?_getD, List.getElem?_eq_getElem h]
  rfl

/-- The recorded sum `Σ 0.5*(W[i]² + W[i+1]²)*h` is the trapezoidal rule
applied to the integrand `W²` (not to `½W²`). -/
theorem keOf_eq_trapezoid (N : ℕ) (h : ℚ) (W : List ℚ) :
    keOf N h W = trapezoidRule N h fun i => (W.getD i 0) ^ 2 := by
  unfold keOf trapezoidRule
  congr 1
  congr 1
  funext i
  ring

/-- **C1 (amended)**: at every saved time sample of every completed solve,
the recorded kinetic energy equals the trapezoidal-rule approximation of
`∫ W² dη` over the grid — twice the value `∫ ½W² dη` stated in the spec. -/
theorem kineticEnergy_eq_trapezoid_of_W_sq (p : Params) (dtau tauFinal : ℚ)
    (saveFreq t : ℕ) (ht : t < (savedSteps (numSteps tauFinal dtau) saveFreq).length) :
    (kineticEnergyList p dtau tauFinal saveFreq).getD t 0 =
      trapezoidRule p.N (gridH p)
        fun i => ((sampleState p dtau tauFinal saveFreq t).1.getD i 0) ^ 2 := by
  unfold kineticEnergyList
  rw [getD_map_of_lt _ _ ht 0]
  exact keOf_eq_trapezoid p.N (gridH p) _

/-- Witness for the amended C1 at `pTiny` (one saved sample). -/
theorem kineticEnergy_eq_trapezoid_witness :
    0 < (savedSteps (numSteps 1 2) 1).length ∧
      (kineticEnergyList pTiny 2 1 1).getD 0 0 =
        trapezoidRule pTiny.N (gridH pTiny)
          (fun i => ((sampleState pTiny 2 1 1 0).1.getD i 0) ^ 2) :=
  ⟨by norm_num [numSteps, savedSteps],
    kineticEnergy_eq_trapezoid_of_W_sq pTiny 2 1 1 0 (by norm_num [numSteps, savedSteps])⟩

/-- **C1 (counterexample)**: the claim as stated — recorded kinetic energy
equals the trapezoidal rule applied to `½W²` — fails at the first saved
sample of a completed solve at `pTiny` with `tauFinal = 1`, `dtau = 2`,
`saveFreq = 1`: the recorded value is `1/2` while the stated formula gives
`1/4`. -/
theorem kineticEnergy_not_half_trapezoid_cex :
    ¬ ((kineticEnergyList pTiny 2 1 1).getD 0 0 =
        trapezoidRule pTiny.N (gridH pTiny)
          fun i => (1 / 2) * ((sampleState pTiny 2 1 1 0).1.getD i 0) ^ 2) := by
  norm_num [kineticEnergyList, trapezoidRule, keOf, numSteps, savedSteps, sampleState,
    solStateAt, initState, initW, initTheta, gridH, pTiny, List.range_succ]

end MHD

namespace MHD

/-! ## Claims C3 and C10: the mixture calculator -/

/-- **C3**: for every known particle type, at volume fraction `phi = 0` the
calculator returns all five property ratios exactly equal to `1`. -/
theorem nanofluid_ratios_one_at_phi_zero (t : Particle) :
    (computeNanofluidProperties (some t) 0).A1 = 1 ∧
      (computeNanofluidProperties (some t) 0).A2 = 1 ∧
      (computeNanofluidProperties (some t) 0).A3 = 1 ∧
      (computeNanofluidProperties (some t) 0).A4 = 1 ∧
      (computeNanofluidProperties (some t) 0).A5 = 1 := by
  cases t <;>
    · simp only [computeNanofluidProperties, nanoparticleDB]
      norm_num [Real.one_rpow]

/-- **C10**: for an unknown particle key the calculator raises no error and
returns the fixed default ratios, independently of the volume fraction. -/
theorem unknown_particle_defaults (phi : ℝ) :
    computeNanofluidProperties none phi =
      { A1 := 1.2, A2 := 1.5, A3 := 1.3, A4 := 1.1, A5 := 1.15 } := rfl

end MHD

namespace MHD

/-! ## Claim C8: rise-time ordering -/

theorem pairwise_fst_zip (R : ℚ → ℚ → Prop) :
    ∀ (l l' : List ℚ), l.Pairwise R → (l.zip l').Pairwise fun a b => R a.1 b.1
  | [], _, _ => by simp
  | _ :: _, [], _ => by simp
  | x :: xs, y :: ys, h => by
    rw [List.zip_cons_cons]
    rcases List.pairwise_cons.mp h with ⟨hx, hxs⟩
    refine List.pairwise_cons.mpr ⟨?_, pairwise_fst_zip R xs ys hxs⟩
    rintro ⟨b1, b2⟩ hb
    exact hx b1 (List.of_mem_zip hb).1

/-- Invariant of the source's single-pass rise-time scan: with sentinel
initialisation, nondecreasing sample times all bounded by `tauFinal`, its
first result (`tau63`) never exceeds its second (`tau95`). -/
theorem riseLoop_le (tauFinal cfF : ℚ) :
    ∀ (l : List (ℚ × ℚ)) (t63 : ℚ),
      (∀ x ∈ l, x.1 ≤ tauFinal) →
      l.Pairwise (fun a b => a.1 ≤ b.1) →
      (t63 = tauFinal ∨ (t63 ≤ tauFinal ∧ ∀ x ∈ l, t63 ≤ x.1)) →
      (riseLoop tauFinal cfF l t63).1 ≤ (riseLoop tauFinal cfF l t63).2
  | [], t63, _, _, hinv => by
    rcases hinv with h | ⟨h, _⟩ <;> simp [riseLoop, h]
  | (tau, cf) :: rest, t63, hτ, hp, hinv => by
    have h63le95 : (63 / 100) * |cfF| ≤ (95 / 100) * |cfF| := by
      have := abs_nonneg cfF
      nlinarith
    by_cases h95 : (95 / 100) * |cfF| ≤ |cf|
    · by_cases hg : (63 / 100) * |cfF| ≤ |cf| ∧ t63 = tauFinal
      · simp [riseLoop, hg, h95]
      · have h63 : (63 / 100) * |cfF| ≤ |cf| := le_trans h63le95 h95
        have hne : ¬ t63 = tauFinal := fun he => hg ⟨h63, he⟩
        rcases hinv with he | ⟨_, hall⟩
        · exact absurd he hne
        · have ht : t63 ≤ tau := hall (tau, cf) (List.mem_cons_self _ _)
          simp [riseLoop, hg, h95, ht]
    · have hrest : (riseLoop tauFinal cfF rest
          (if (63 / 100) * |cfF| ≤ |cf| ∧ t63 = tauFinal then tau else t63)).1 ≤
          (riseLoop tauFinal cfF rest
            (if (63 / 100) * |cfF| ≤ |cf| ∧ t63 = tauFinal then tau else t63)).2 := by
        apply riseLoop_le tauFinal cfF rest _
          (fun x hx => hτ x (List.mem_cons_of_mem _ hx)) (List.pairwise_cons.mp hp).2
        by_cases hg : (63 / 100) * |cfF| ≤ |cf| ∧ t63 = tauFinal
        · refine Or.inr ⟨?_, ?_⟩
          · simp only [hg, if_true]
            exact hτ (tau, cf) (List.mem_cons_self _ _)
          · intro x hx
            simp only [hg, if_true]
            exact (List.pairwise_cons.mp hp).1 x hx
        · rcases hinv with he | ⟨hle, hall⟩
          · have hA : ¬ (63 / 100) * |cfF| ≤ |cf| := fun hA => hg ⟨hA, he⟩
            exact Or.inl (by simp [hA, he])
          · refine Or.inr ⟨by simp [hg, hle], ?_⟩
            intro x hx
            simpa [hg] using hall x (List.mem_cons_of_mem _ hx)
      simpa [riseLoop, h95] using hrest

theorem savedSteps_pairwise (Nt sf : ℕ) : (savedSteps Nt sf).Pairwise (· < ·) := by
  unfold savedSteps
  refine List.pairwise_cons.mpr ⟨?_, (List.pairwise_lt_range' 1 Nt).filter _⟩
  intro n hn
  have := List.mem_range'_1.mp (List.mem_of_mem_filter hn)
  omega

theorem savedSteps_le (Nt sf : ℕ) : ∀ n ∈ savedSteps Nt sf, n ≤ Nt := by
  intro n hn
  rcases List.mem_cons.mp hn with h0 | hf
  · omega
  · have := List.mem_range'_1.mp (List.mem_of_mem_filter hf)
    omega

theorem numSteps_mul_le (tauFinal dtau : ℚ) (hdt : 0 < dtau) (htf : 0 ≤ tauFinal) :
    ((numSteps tauFinal dtau : ℚ)) * dtau ≤ tauFinal := by
  unfold numSteps
  have h0 : (0 : ℚ) ≤ tauFinal / dtau := div_nonneg htf hdt.le
  have h1 : ((⌊tauFinal / dtau⌋.toNat : ℤ) : ℚ) ≤ tauFinal / dtau := by
    rw [Int.toNat_of_nonneg (Int.floor_nonneg.mpr h0)]
    exact Int.floor_le _
  calc ((⌊tauFinal / dtau⌋.toNat : ℕ) : ℚ) * dtau ≤ (tauFinal / dtau) * dtau := by
        apply mul_le_mul_of_nonneg_right _ hdt.le
        exact_mod_cast h1
    _ = tauFinal := div_mul_cancel₀ _ (ne_of_gt hdt)

theorem tauHistory_le (dtau tauFinal : ℚ) (saveFreq : ℕ) (hdt : 0 < dtau)
    (htf : 0 ≤ tauFinal) : ∀ x ∈ tauHistory dtau tauFinal saveFreq, x ≤ tauFinal := by
  intro x hx
  unfold tauHistory at hx
  rcases List.mem_map.mp hx with ⟨n, hn, rfl⟩
  have hle : n ≤ numSteps tauFinal dtau := savedSteps_le _ _ n hn
  calc (n : ℚ) * dtau ≤ (numSteps tauFinal dtau : ℚ) * dtau :=
        mul_le_mul_of_nonneg_right (by exact_mod_cast hle) hdt.le
    _ ≤ tauFinal := numSteps_mul_le tauFinal dtau hdt htf

theorem tauHistory_pairwise (dtau tauFinal : ℚ) (saveFreq : ℕ) (hdt : 0 < dtau) :
    (tauHistory dtau tauFinal saveFreq).Pairwise (· ≤ ·) := by
  unfold tauHistory
  refine List.Pairwise.map _ ?_ (savedSteps_pairwise (numSteps tauFinal dtau) saveFreq)
  intro a b hab
  exact mul_le_mul_of_nonneg_right (by exact_mod_cast hab.le) hdt.le

/-- **C8**: for every completed solve (positive `dtau` and `tauFinal`), the
reported rise times satisfy `tau63 ≤ tau95`.  (In this exact-arithmetic
model no `NaN` can occur, so the claim's no-`NaN` proviso always holds.) -/
theorem tau63_le_tau95 (p : Params) (dtau tauFinal : ℚ) (saveFreq : ℕ)
    (hdt : 0 < dtau) (htf : 0 < tauFinal) :
    (riseTimes p dtau tauFinal saveFreq).1 ≤ (riseTimes p dtau tauFinal saveFreq).2 := by
  unfold riseTimes
  apply riseLoop_le
  · intro x hx
    obtain ⟨h1, _⟩ := List.of_mem_zip hx
    exact tauHistory_le dtau tauFinal saveFreq hdt htf.le x.1 h1
  · exact pairwise_fst_zip _ _ _ (tauHistory_pairwise dtau tauFinal saveFreq hdt)
  · exact Or.inl rfl

/-- Witness for C8 at `pTiny` with `dtau = 1/2`, `tauFinal = 1`. -/
theorem tau63_le_tau95_witness :
    (0 : ℚ) < 1 / 2 ∧ (0 : ℚ) < 1 ∧
      (riseTimes pTiny (1 / 2) 1 1).1 ≤ (riseTimes pTiny (1 / 2) 1 1).2 :=
  ⟨by norm_num, by norm_num, tau63_le_tau95 pTiny (1 / 2) 1 1 (by norm_num) (by norm_num)⟩

end MHD

namespace MHD

/-! ## Claim C4: tournament selection -/

theorem keepFitter_ge_left (a b : List ℚ × ℚ) : a.2 ≤ (if a.2 < b.2 then b else a).2 := by
  split_ifs with h
  · exact le_of_lt h
  · exact le_refl _

theorem keepFitter_ge_right (a b : List ℚ × ℚ) : b.2 ≤ (if a.2 < b.2 then b else a).2 := by
  split_ifs with h
  · exact le_refl _
  · exact le_of_not_lt h

theorem keepFitter_cases (a b : List ℚ × ℚ) :
    (if a.2 < b.2 then b else a) = a ∨ (if a.2 < b.2 then b else a) = b := by
  split_ifs
  · exact Or.inr rfl
  · exact Or.inl rfl

/-- **C4 (counterexample)**: on the two-candidate evaluated population
`evPair` with the draw stream `rStep` (draws `0, 0, 1/2`), the source's
`sel` closure returns the individual `[1]` after consuming three draws,
while the spec's two-draw tournament returns `[0]` after two draws — so a
parent is *not* chosen by a tournament of exactly 2 random draws. -/
theorem tournament_two_draw_cex :
    (selTournament evPair rStep 0).1.1 ≠ (selSpecTwoDraw evPair rStep 0).1.1 ∧
      (selTournament evPair rStep 0).2 ≠ (selSpecTwoDraw evPair rStep 0).2 := by
  constructor
  · norm_num [selTournament, selSpecTwoDraw, evPair, rStep, randIndex]
  · norm_num [selTournament, selSpecTwoDraw, rStep, randIndex]

/-- **C4 (amended)**: each parent slot is filled by a tournament of exactly
*three* random draws (an initial candidate and two challengers, keeping the
strictly fitter at each comparison): the selection consumes exactly three
draws and returns one of the three drawn candidates, whose fitness is the
maximum of the three. -/
theorem tournament_three_draw_max (ev : List (List ℚ × ℚ)) (r : ℕ → ℚ) (k : ℕ) :
    (selTournament ev r k).2 = k + 3 ∧
      ((selTournament ev r k).1 = ev.getD (randIndex (r k) ev.length) ([], 0) ∨
        (selTournament ev r k).1 = ev.getD (randIndex (r (k + 1)) ev.length) ([], 0) ∨
        (selTournament ev r k).1 = ev.getD (randIndex (r (k + 2)) ev.length) ([], 0)) ∧
      (ev.getD (randIndex (r k) ev.length) ([], 0)).2 ≤ (selTournament ev r k).1.2 ∧
      (ev.getD (randIndex (r (k + 1)) ev.length) ([], 0)).2 ≤ (selTournament ev r k).1.2 ∧
      (ev.getD (randIndex (r (k + 2)) ev.length) ([], 0)).2 ≤ (selTournament ev r k).1.2 := by
  set c0 := ev.getD (randIndex (r k) ev.length) ([], 0) with hc0
  set c1 := ev.getD (randIndex (r (k + 1)) ev.length) ([], 0) with hc1
  set c2 := ev.getD (randIndex (r (k + 2)) ev.length) ([], 0) with hc2
  have hsel : selTournament ev r k =
      (if (if c0.2 < c1.2 then c1 else c0).2 < c2.2 then c2
        else if c0.2 < c1.2 then c1 else c0, k + 3) := rfl
  rw [hsel]
  refine ⟨rfl, ?_, ?_, ?_, ?_⟩
  · rcases keepFitter_cases (if c0.2 < c1.2 then c1 else c0) c2 with h | h
    · rcases keepFitter_cases c0 c1 with h' | h'
      · exact Or.inl (h.trans h')
      · exact Or.inr (Or.inl (h.trans h'))
    · exact Or.inr (Or.inr h)
  · exact le_trans (keepFitter_ge_left c0 c1)
      (keepFitter_ge_left (if c0.2 < c1.2 then c1 else c0) c2)
  · exact le_trans (keepFitter_ge_right c0 c1)
      (keepFitter_ge_left (if c0.2 < c1.2 then c1 else c0) c2)
  · exact keepFitter_ge_right (if c0.2 < c1.2 then c1 else c0) c2

end MHD

namespace MHD

/-! ## Claim C6: the best-fitness sequence is non-decreasing -/

theorem genStep_bestFit_mono (cfg : GAConfig) (fn : List ℚ → ℚ) (r : ℕ → ℚ) (st : GAState) :
    st.bestFit ≤ (genStep cfg fn r st).bestFit := by
  unfold genStep
  dsimp only
  by_cases h : st.bestFit < ((((evalPop fn st.pop).getD 0 ([], 0)).2 : ℚ) : WithBot ℚ)
  · simp only [h, if_true]
    exact le_of_lt h
  · simp only [h, if_false]
    exact le_refl _

theorem gaStateAt_bestFit_mono (cfg : GAConfig) (fn : List ℚ → ℚ) (r : ℕ → ℚ)
    (g g' : ℕ) (h : g ≤ g') :
    (gaStateAt cfg fn r g).bestFit ≤ (gaStateAt cfg fn r g').bestFit := by
  induction h with
  | refl => exact le_refl _
  | @step g'' hg ih =>
    refine le_trans ih ?_
    have hstep : gaStateAt cfg fn r (g'' + 1) = genStep cfg fn r (gaStateAt cfg fn r g'') := by
      rw [gaStateAt, Function.iterate_succ_apply']
      rfl
    rw [hstep]
    exact genStep_bestFit_mono cfg fn r _

/-- **C6**: for every fitness function, bounds specification and draw
stream, the best-fitness values reported generation by generation are
non-decreasing, and none exceeds the final returned `bestFitness`. -/
theorem bestFit_monotone (cfg : GAConfig) (fn : List ℚ → ℚ) (r : ℕ → ℚ) (g g' gens : ℕ)
    (h1 : g ≤ g') (h2 : g' < gens) :
    reportedBestFit cfg fn r g ≤ reportedBestFit cfg fn r g' ∧
      reportedBestFit cfg fn r g' ≤ finalBestFit cfg fn r gens := by
  constructor
  · exact gaStateAt_bestFit_mono cfg fn r (g + 1) (g' + 1) (by omega)
  · exact gaStateAt_bestFit_mono cfg fn r (g' + 1) gens (by omega)

/-- Witness for C6: a concrete one-dimensional configuration, constant
fitness and constant draw stream, comparing generations 0 and 1. -/
theorem bestFit_monotone_witness :
    reportedBestFit ⟨[(0, 1)], 2, 0⟩ (fun _ => 0) (fun _ => 0) 0 ≤
        reportedBestFit ⟨[(0, 1)], 2, 0⟩ (fun _ => 0) (fun _ => 0) 1 ∧
      reportedBestFit ⟨[(0, 1)], 2, 0⟩ (fun _ => 0) (fun _ => 0) 1 ≤
        finalBestFit ⟨[(0, 1)], 2, 0⟩ (fun _ => 0) (fun _ => 0) 2 :=
  bestFit_monotone ⟨[(0, 1)], 2, 0⟩ (fun _ => 0) (fun _ => 0) 0 1 2 (by omega) (by omega)

end MHD

namespace MHD

/-! ## Claim C9: every individual stays within the declared bounds -/

theorem getD_mem' {α : Type} (l : List α) (d : α) {i : ℕ} (h : i < l.length) :
    l.getD i d ∈ l := by
  rw [List.getD_eq_getElem?_getD, List.getElem?_eq_getElem h]
  exact List.getElem_mem h

theorem randIndex_lt (q : ℚ) (len : ℕ) (_h0 : 0 ≤ q) (h1 : q < 1) (hl : 0 < len) :
    randIndex q len < len := by
  unfold randIndex
  have hcast : (0 : ℚ) < (len : ℚ) := by exact_mod_cast hl
  have hfl : ⌊q * (len : ℚ)⌋ < (len : ℤ) := by
    apply Int.floor_lt.mpr
    push_cast
    nlinarith [mul_lt_mul_of_pos_right h1 hcast]
  omega

theorem mem_insertByFit : ∀ (l : List (List ℚ × ℚ)) (x y : List ℚ × ℚ),
    y ∈ insertByFit x l → y = x ∨ y ∈ l
  | [], x, y, h => by simpa [insertByFit] using h
  | z :: zs, x, y, h => by
    simp only [insertByFit] at h
    by_cases hc : z.2 < x.2
    · simp only [hc, if_true, List.mem_cons] at h
      rcases h with h | h | h
      · exact Or.inl h
      · exact Or.inr (by simp [h])
      · exact Or.inr (List.mem_cons_of_mem _ h)
    · simp only [hc, if_false, List.mem_cons] at h
      rcases h with h | h
      · exact Or.inr (by simp [h])
      · rcases mem_insertByFit zs x y h with h' | h'
        · exact Or.inl h'
        · exact Or.inr (List.mem_cons_of_mem _ h')

theorem mem_sortByFitDesc : ∀ (l : List (List ℚ × ℚ)) (y : List ℚ × ℚ),
    y ∈ sortByFitDesc l → y ∈ l
  | [], y, h => by simp [sortByFitDesc] at h
  | x :: xs, y, h => by
    rcases mem_insertByFit _ x y h with h' | h'
    · simp [h']
    · exact List.mem_cons_of_mem _ (mem_sortByFitDesc xs y h')

theorem length_insertByFit (x : List ℚ × ℚ) :
    ∀ l : List (List ℚ × ℚ), (insertByFit x l).length = l.length + 1
  | [] => rfl
  | z :: zs => by
    simp only [insertByFit]
    split_ifs <;> simp [length_insertByFit x zs]

theorem length_sortByFitDesc :
    ∀ l : List (List ℚ × ℚ), (sortByFitDesc l).length = l.length
  | [] => rfl
  | x :: xs => by
    simp [sortByFitDesc, length_insertByFit, length_sortByFitDesc xs]

theorem length_evalPop (fn : List ℚ → ℚ) (pop : List (List ℚ)) :
    (evalPop fn pop).length = pop.length := by
  simp [evalPop, length_sortByFitDesc]

theorem evalPop_mem (fn : List ℚ → ℚ) (pop : List (List ℚ)) (y : List ℚ × ℚ)
    (h : y ∈ evalPop fn pop) : y.1 ∈ pop := by
  rcases List.mem_map.mp (mem_sortByFitDesc _ y h) with ⟨i, hi, heq⟩
  rw [← heq]
  exact hi

theorem inBounds_createInd (r : ℕ → ℚ) (hr : ∀ k, 0 ≤ r k ∧ r k < 1) :
    ∀ (bs : List (ℚ × ℚ)) (k : ℕ), (∀ b ∈ bs, b.1 ≤ b.2) →
      inBounds (createInd r bs k).1 bs = true
  | [], _, _ => rfl
  | b :: bs, k, hb => by
    have hd : b.1 ≤ b.2 := hb b (List.mem_cons_self _ _)
    have h1 : r k < 1 := (hr k).2
    have hstep : 0 ≤ r k * (b.2 - b.1) := mul_nonneg (hr k).1 (by linarith)
    simp only [createInd, inBounds, Bool.and_eq_true, decide_eq_true_eq]
    refine ⟨⟨?_, ?_⟩, inBounds_createInd r hr bs (k + 1)
      (fun x hx => hb x (List.mem_cons_of_mem _ hx))⟩
    · nlinarith
    · nlinarith

theorem inBounds_initPop (r : ℕ → ℚ) (bounds : List (ℚ × ℚ))
    (hr : ∀ k, 0 ≤ r k ∧ r k < 1) (hb : ∀ b ∈ bounds, b.1 ≤ b.2) :
    ∀ (n k : ℕ), ∀ x ∈ (initPop r bounds n k).1, inBounds x bounds = true
  | 0, k => by simp [initPop]
  | n + 1, k => by
    intro x hx
    simp only [initPop, List.mem_cons] at hx
    rcases hx with rfl | hx'
    · exact inBounds_createInd r hr bounds k hb
    · exact inBounds_initPop r bounds hr hb n _ x hx'

theorem length_initPop (r : ℕ → ℚ) (bounds : List (ℚ × ℚ)) :
    ∀ (n k : ℕ), (initPop r bounds n k).1.length = n
  | 0, _ => rfl
  | n + 1, k => by simp [initPop, length_initPop r bounds n]

theorem inBounds_crossover (r : ℕ → ℚ) (hr : ∀ k, 0 ≤ r k ∧ r k < 1) :
    ∀ (bs : List (ℚ × ℚ)) (p1 p2 : List ℚ) (k : ℕ),
      inBounds p1 bs = true → inBounds p2 bs = true →
      inBounds (crossover r bs p1 p2 k).1 bs = true
  | [], _, _, _, _, _ => rfl
  | b :: bs, [], p2, k, h1, _ => by simp [inBounds] at h1
  | b :: bs, v1 :: vs1, [], k, _, h2 => by simp [inBounds] at h2
  | b :: bs, v1 :: vs1, v2 :: vs2, k, h1, h2 => by
    simp only [inBounds, Bool.and_eq_true, decide_eq_true_eq] at h1 h2
    obtain ⟨⟨h1l, h1u⟩, h1t⟩ := h1
    obtain ⟨⟨h2l, h2u⟩, h2t⟩ := h2
    have h0 := (hr k).1
    have hlt := (hr k).2
    have hA := mul_le_mul_of_nonneg_left h1l h0
    have hA' := mul_le_mul_of_nonneg_left h1u h0
    have hB := mul_le_mul_of_nonneg_left h2l (by linarith : (0 : ℚ) ≤ 1 - r k)
    have hB' := mul_le_mul_of_nonneg_left h2u (by linarith : (0 : ℚ) ≤ 1 - r k)
    simp only [crossover, inBounds, List.tail_cons, List.headD_cons, Bool.and_eq_true,
      decide_eq_true_eq]
    refine ⟨⟨?_, ?_⟩, inBounds_crossover r hr bs vs1 vs2 (k + 1) h1t h2t⟩
    · nlinarith
    · nlinarith

theorem inBounds_mutate (r : ℕ → ℚ) (mutRate : ℚ) :
    ∀ (bs : List (ℚ × ℚ)) (v : List ℚ) (k : ℕ),
      (∀ b ∈ bs, b.1 ≤ b.2) → inBounds v bs = true →
      inBounds (mutate r mutRate bs v k).1 bs = true
  | [], _, _, _, _ => rfl
  | b :: bs, [], k, hb, hv => by simp [inBounds] at hv
  | b :: bs, v1 :: vs, k, hb, hv => by
    simp only [inBounds, Bool.and_eq_true, decide_eq_true_eq] at hv
    obtain ⟨⟨hl, hu⟩, ht⟩ := hv
    have hd : b.1 ≤ b.2 := hb b (List.mem_cons_self _ _)
    have htl : ∀ x ∈ bs, x.1 ≤ x.2 := fun x hx => hb x (List.mem_cons_of_mem _ hx)
    by_cases hc : r k < mutRate
    · simp only [mutate, hc, if_true, List.tail_cons, List.headD_cons, inBounds,
        Bool.and_eq_true, decide_eq_true_eq]
      exact ⟨⟨le_max_left _ _, max_le hd (min_le_left _ _)⟩,
        inBounds_mutate r mutRate bs vs (k + 2) htl ht⟩
    · simp only [mutate, hc, if_false, List.tail_cons, List.headD_cons, inBounds,
        Bool.and_eq_true, decide_eq_true_eq]
      exact ⟨⟨hl, hu⟩, inBounds_mutate r mutRate bs vs (k + 1) htl ht⟩

theorem selTournament_mem (ev : List (List ℚ × ℚ)) (r : ℕ → ℚ) (k : ℕ)
    (hr : ∀ k, 0 ≤ r k ∧ r k < 1) (hl : 0 < ev.length) :
    (selTournament ev r k).1 ∈ ev := by
  have m0 : ev.getD (randIndex (r k) ev.length) ([], 0) ∈ ev :=
    getD_mem' _ _ (randIndex_lt _ _ (hr k).1 (hr k).2 hl)
  have m1 : ev.getD (randIndex (r (k + 1)) ev.length) ([], 0) ∈ ev :=
    getD_mem' _ _ (randIndex_lt _ _ (hr (k + 1)).1 (hr (k + 1)).2 hl)
  have m2 : ev.getD (randIndex (r (k + 2)) ev.length) ([], 0) ∈ ev :=
    getD_mem' _ _ (randIndex_lt _ _ (hr (k + 2)).1 (hr (k + 2)).2 hl)
  have hsel : (selTournament ev r k).1 =
      if (if (ev.getD (randIndex (r k) ev.length) ([], 0)).2 <
            (ev.getD (randIndex (r (k + 1)) ev.length) ([], 0)).2 then
          ev.getD (randIndex (r (k + 1)) ev.length) ([], 0)
        else ev.getD (randIndex (r k) ev.length) ([], 0)).2 <
          (ev.getD (randIndex (r (k + 2)) ev.length) ([], 0)).2 then
        ev.getD (randIndex (r (k + 2)) ev.length) ([], 0)
      else if (ev.getD (randIndex (r k) ev.length) ([], 0)).2 <
            (ev.getD (randIndex (r (k + 1)) ev.length) ([], 0)).2 then
          ev.getD (randIndex (r (k + 1)) ev.length) ([], 0)
        else ev.getD (randIndex (r k) ev.length) ([], 0) := rfl
  rw [hsel]
  split_ifs <;> first | exact m0 | exact m1 | exact m2

theorem length_fillPop (r : ℕ → ℚ) (bounds : List (ℚ × ℚ)) (mutRate : ℚ)
    (ev : List (List ℚ × ℚ)) :
    ∀ (m k : ℕ), (fillPop r bounds mutRate ev m k).1.length = m
  | 0, _ => rfl
  | m + 1, k => by simp [fillPop, length_fillPop r bounds mutRate ev m]

theorem inBounds_fillPop (r : ℕ → ℚ) (bounds : List (ℚ × ℚ)) (mutRate : ℚ)
    (ev : List (List ℚ × ℚ)) (hr : ∀ k, 0 ≤ r k ∧ r k < 1)
    (hb : ∀ b ∈ bounds, b.1 ≤ b.2)
    (hev : ∀ y ∈ ev, inBounds y.1 bounds = true) (hl : 0 < ev.length) :
    ∀ (m k : ℕ), ∀ x ∈ (fillPop r bounds mutRate ev m k).1, inBounds x bounds = true
  | 0, k => by simp [fillPop]
  | m + 1, k => by
    intro x hx
    simp only [fillPop, List.mem_cons] at hx
    rcases hx with rfl | hx'
    · apply inBounds_mutate r mutRate bounds _ _ hb
      apply inBounds_crossover r hr bounds _ _ _
      · exact hev _ (selTournament_mem ev r _ hr hl)
      · exact hev _ (selTournament_mem ev r _ hr hl)
    · exact inBounds_fillPop r bounds mutRate ev hr hb hev hl m _ x hx'

theorem genStep_invariant (cfg : GAConfig) (fn : List ℚ → ℚ) (r : ℕ → ℚ) (st : GAState)
    (hr : ∀ k, 0 ≤ r k ∧ r k < 1) (hb : ∀ b ∈ cfg.bounds, b.1 ≤ b.2)
    (hp : 2 ≤ cfg.popSize)
    (hpop : ∀ x ∈ st.pop, inBounds x cfg.bounds = true)
    (hlen : st.pop.length = cfg.popSize) :
    (∀ x ∈ (genStep cfg fn r st).pop, inBounds x cfg.bounds = true) ∧
      (genStep cfg fn r st).pop.length = cfg.popSize := by
  have hevlen : (evalPop fn st.pop).length = cfg.popSize := by
    rw [length_evalPop, hlen]
  have hev : ∀ y ∈ evalPop fn st.pop, inBounds y.1 cfg.bounds = true := by
    intro y hy
    exact hpop y.1 (evalPop_mem fn st.pop y hy)
  have hl : 0 < (evalPop fn st.pop).length := by omega
  constructor
  · intro x hx
    simp only [genStep, List.mem_cons] at hx
    rcases hx with rfl | hx1
    · exact hev _ (getD_mem' _ _ (by omega))
    rcases hx1 with rfl | hx2
    · exact hev _ (getD_mem' _ _ (by omega))
    · exact inBounds_fillPop r cfg.bounds cfg.mutRate _ hr hb hev hl _ _ x hx2
  · simp only [genStep, List.length_cons, length_fillPop]
    omega

theorem gaStateAt_invariant (cfg : GAConfig) (fn : List ℚ → ℚ) (r : ℕ → ℚ)
    (hr : ∀ k, 0 ≤ r k ∧ r k < 1) (hb : ∀ b ∈ cfg.bounds, b.1 ≤ b.2)
    (hp : 2 ≤ cfg.popSize) :
    ∀ g : ℕ, (∀ x ∈ (gaStateAt cfg fn r g).pop, inBounds x cfg.bounds = true) ∧
      (gaStateAt cfg fn r g).pop.length = cfg.popSize
  | 0 =>
    ⟨fun x hx => inBounds_initPop r cfg.bounds hr hb cfg.popSize 0 x hx,
      length_initPop r cfg.bounds cfg.popSize 0⟩
  | g + 1 => by
    have ih := gaStateAt_invariant cfg fn r hr hb hp g
    have hstep : gaStateAt cfg fn r (g + 1) = genStep cfg fn r (gaStateAt cfg fn r g) := by
      rw [gaStateAt, Function.iterate_succ_apply']
      rfl
    rw [hstep]
    exact genStep_invariant cfg fn r _ hr hb hp ih.1 ih.2

/-- **C9**: for well-formed bounds (`min ≤ max` per dimension), unit-interval
random draws, and a population of at least two individuals, every individual
present in any optimizer generation — initial individuals, elite carry-overs
and mutated crossover children alike — lies within the declared bounds in
every search dimension. -/
theorem population_within_bounds (cfg : GAConfig) (fn : List ℚ → ℚ) (r : ℕ → ℚ)
    (g : ℕ) (ind : List ℚ) (hr : ∀ k, 0 ≤ r k ∧ r k < 1)
    (hb : ∀ b ∈ cfg.bounds, b.1 ≤ b.2) (hp : 2 ≤ cfg.popSize)
    (hmem : ind ∈ (gaStateAt cfg fn r g).pop) :
    inBounds ind cfg.bounds = true :=
  (gaStateAt_invariant cfg fn r hr hb hp g).1 ind hmem

/-- Witness for C9: the one-dimensional configuration `[(0, 1)]` with
population size 2, constant-zero fitness and draws; the individual `[0]`
belongs to generation 0 and lies within bounds. -/
theorem population_within_bounds_witness :
    2 ≤ (⟨[(0, 1)], 2, 0⟩ : GAConfig).popSize ∧
      inBounds [0] (⟨[(0, 1)], 2, 0⟩ : GAConfig).bounds = true :=
  ⟨by decide,
    population_within_bounds ⟨[(0, 1)], 2, 0⟩ (fun _ => 0) (fun _ => 0) 0 [0]
      (fun _ => ⟨le_refl 0, by norm_num⟩)
      (by intro b hb; simp at hb; simp [hb])
      (by decide)
      (by norm_num [gaStateAt, gaInit, initPop, createInd])⟩

end MHD
